import Mathlib

/-!
Verification of the security layer of the open-lovable repository
(`src/lib/security.ts`): URL validation (anti-SSRF), command allow-listing,
package-name validation, safe error responses, an in-memory sliding-window
rate limiter, and sandbox path validation.

JavaScript strings are modelled as Lean `String`s and all operations work on
their character lists (`String.data`).  Machine numbers that matter (the rate
limiter's millisecond timestamps) are modelled as `Int`.
-/

namespace OpenLovable

/-! ## JavaScript string primitives -/

/-- The code points that JavaScript's `String.prototype.trim` and the regex
class `\s` treat as whitespace (WhiteSpace and LineTerminator productions). -/
def jsWhitespaceCodes : List Nat :=
  [9, 10, 11, 12, 13, 32, 160, 5760,
   8192, 8193, 8194, 8195, 8196, 8197, 8198, 8199, 8200, 8201, 8202,
   8232, 8233, 8239, 8287, 12288, 65279]

def isJsSpace (c : Char) : Bool := jsWhitespaceCodes.contains c.toNat

/-- `trim` on a character list: drop whitespace from both ends. -/
def jsTrimList (l : List Char) : List Char :=
  ((l.dropWhile isJsSpace).reverse.dropWhile isJsSpace).reverse

/-- Model of JavaScript `s.trim()`. -/
def jsTrim (s : String) : String := String.mk (jsTrimList s.data)

/-- Model of JavaScript `s.toLowerCase()` (ASCII letters; hostnames in the
claims under study are ASCII). -/
def jsToLower (s : String) : String := String.mk (s.data.map Char.toLower)

/-- Model of JavaScript `s.startsWith(pre)`. -/
def strStartsWith (s pre : String) : Bool := pre.data.isPrefixOf s.data

/-- Does `sub` occur as a contiguous sublist of the second argument?
Models JavaScript `s.includes(sub)` and regexes that are bare literals. -/
def containsSub (sub : List Char) : List Char → Bool
  | [] => sub.isEmpty
  | c :: t => sub.isPrefixOf (c :: t) || containsSub sub t

/-- JavaScript regex `\w`: ASCII letters, digits and underscore. -/
def isWordChar (c : Char) : Bool :=
  ('a' ≤ c && c ≤ 'z') || ('A' ≤ c && c ≤ 'Z') || ('0' ≤ c && c ≤ '9') || c = '_'

/-- Does the word `w` occur at the head of `l` with a word boundary after it?
(The boundary before it is handled by the caller.) -/
def wordAt (w : List Char) (l : List Char) : Bool :=
  w.isPrefixOf l &&
    (match l.drop w.length with
     | [] => true
     | c :: _ => !isWordChar c)

/-- Scan for `/\bw\b/`: `boundary` records whether the previous character (if
any) was a non-word character, i.e. whether a word may begin here. -/
def hasWordAux (w : List Char) : Bool → List Char → Bool
  | boundary, [] => boundary && wordAt w []
  | boundary, c :: t => (boundary && wordAt w (c :: t)) || hasWordAux w (!isWordChar c) t

/-- Model of testing `/\bw\b/` (for `w` made of word characters) on a string. -/
def hasWord (w : String) (l : List Char) : Bool := hasWordAux w.data true l

/-- Splitting on runs of whitespace, as JavaScript `s.split(/\s+/)` behaves on
a trimmed string (no leading or trailing empty tokens). -/
def splitWsAux : List Char → List Char → List (List Char)
  | [], acc => if acc.isEmpty then [] else [acc.reverse]
  | c :: t, acc =>
    if isJsSpace c then
      if acc.isEmpty then splitWsAux t [] else acc.reverse :: splitWsAux t []
    else splitWsAux t (c :: acc)

def splitWs (l : List Char) : List (List Char) := splitWsAux l []

/-! ## URL validation (anti-SSRF), from `validateUrl` in `src/lib/security.ts`

The WHATWG `new URL(input)` parser is platform code, not part of the
repository; its outcome is abstracted as `Option JsUrl` (`none` for a parse
failure, otherwise the parsed protocol — with its trailing colon — and
hostname, exactly the two fields `validateUrl` reads). -/

structure JsUrl where
  protocol : String
  hostname : String
deriving DecidableEq, Repr

structure UrlVerdict where
  valid : Bool
  url : Option JsUrl
  error : Option String
deriving DecidableEq, Repr

def BLOCKED_HOSTNAMES : List String :=
  ["localhost", "127.0.0.1", "0.0.0.0", "::1", "[::1]",
   "metadata.google.internal", "169.254.169.254"]

/-- Split on every dot, keeping empty pieces (n separators yield n+1 pieces,
like JavaScript `s.split(".")`); the anchored dotted-quad regexes below are
decided on these pieces, which is equivalent because their character classes
never contain a dot. -/
def splitDotAux : List Char → List Char → List (List Char)
  | [], acc => [acc.reverse]
  | c :: t, acc => if c = '.' then acc.reverse :: splitDotAux t [] else splitDotAux t (c :: acc)

/-- `\d{1,3}` as a full segment: one to three digits. -/
def d13 (l : List Char) : Bool :=
  decide (l.length ≠ 0) && decide (l.length ≤ 3) && l.all Char.isDigit

/-- `/^10\.\d{1,3}\.\d{1,3}\.\d{1,3}$/` -/
def pat10 (s : String) : Bool :=
  match splitDotAux s.data [] with
  | [['1', '0'], a, b, c] => d13 a && d13 b && d13 c
  | _ => false

/-- `(1[6-9]|2\d|3[01])` as a full segment. -/
def is172Second (l : List Char) : Bool :=
  match l with
  | ['1', d] => '6' ≤ d && d ≤ '9'
  | ['2', d] => d.isDigit
  | ['3', d] => d = '0' || d = '1'
  | _ => false

/-- `/^172\.(1[6-9]|2\d|3[01])\.\d{1,3}\.\d{1,3}$/` -/
def pat172 (s : String) : Bool :=
  match splitDotAux s.data [] with
  | [['1', '7', '2'], a, b, c] => is172Second a && d13 b && d13 c
  | _ => false

/-- `/^192\.168\.\d{1,3}\.\d{1,3}$/` -/
def pat192 (s : String) : Bool :=
  match splitDotAux s.data [] with
  | [['1', '9', '2'], ['1', '6', '8'], b, c] => d13 b && d13 c
  | _ => false

def isHexDigitCI (c : Char) : Bool :=
  c.isDigit || ('a' ≤ c && c ≤ 'f') || ('A' ≤ c && c ≤ 'F')

/-- `/^fc[0-9a-f]{2}:/i` (IPv6 unique-local). -/
def patFc (s : String) : Bool :=
  match s.data with
  | c1 :: c2 :: c3 :: c4 :: c5 :: _ =>
    (c1 = 'f' || c1 = 'F') && (c2 = 'c' || c2 = 'C') &&
      isHexDigitCI c3 && isHexDigitCI c4 && c5 = ':'
  | _ => false

/-- `/^fe80:/i` (IPv6 link-local). -/
def patFe80 (s : String) : Bool :=
  match s.data with
  | c1 :: c2 :: c3 :: c4 :: c5 :: _ =>
    (c1 = 'f' || c1 = 'F') && (c2 = 'e' || c2 = 'E') && c3 = '8' && c4 = '0' && c5 = ':'
  | _ => false

def BLOCKED_HOSTNAME_PATTERNS : List (String → Bool) :=
  [pat10, pat172, pat192, patFc, patFe80]

def validateUrl (parsed : Option JsUrl) : UrlVerdict :=
  match parsed with
  | none => ⟨false, none, some "Invalid URL format."⟩
  | some url =>
    if !(["http:", "https:"].contains url.protocol) then
      ⟨false, none, some ("Invalid protocol: " ++ url.protocol ++ ". Only http and https are allowed.")⟩
    else
      let hostname := jsToLower url.hostname
      if BLOCKED_HOSTNAMES.contains hostname then
        ⟨false, none, some "Internal/localhost URLs are not allowed."⟩
      else if BLOCKED_HOSTNAME_PATTERNS.any (fun pat => pat hostname) then
        ⟨false, none, some "Private network URLs are not allowed."⟩
      else ⟨true, some url, none⟩

/-! ## Command allow-listing, from `validateCommand` in `src/lib/security.ts` -/

def ALLOWED_COMMANDS : List String :=
  ["npm", "npx", "node", "cat", "ls", "pwd", "mkdir", "find", "echo",
   "cp", "mv", "rm", "head", "tail", "wc", "grep", "which", "env",
   "vite", "tsc", "eslint", "prettier"]

/-- The shell metacharacter class `[;&|`$]` (semicolon, ampersand, vertical
bar, backtick — code 96 — and dollar). -/
def isShellMeta (c : Char) : Bool :=
  c.toNat = 59 || c.toNat = 38 || c.toNat = 124 || c.toNat = 96 || c.toNat = 36

/-- `BLOCKED_PATTERNS`: each entry pairs the regex source text with the
decision procedure it denotes on the scanned string. -/
def BLOCKED_PATTERNS : List (String × (List Char → Bool)) :=
  [("[;&|`$]", fun l => l.any isShellMeta),
   ("\\.\\.\\/", fun l => containsSub ("../".data) l),
   ("\\/etc\\/", fun l => containsSub ("/etc/".data) l),
   ("\\/proc\\/", fun l => containsSub ("/proc/".data) l),
   ("\\/sys\\/", fun l => containsSub ("/sys/".data) l),
   ("\\bsudo\\b", fun l => hasWord "sudo" l),
   ("\\bcurl\\b", fun l => hasWord "curl" l),
   ("\\bwget\\b", fun l => hasWord "wget" l),
   ("\\bchmod\\b", fun l => hasWord "chmod" l),
   ("\\bchown\\b", fun l => hasWord "chown" l),
   ("\\bdd\\b", fun l => hasWord "dd" l),
   ("\\bmkfs\\b", fun l => hasWord "mkfs" l),
   ("\\bkill\\b", fun l => hasWord "kill" l),
   ("\\bpkill\\b", fun l => hasWord "pkill" l),
   ("\\breboot\\b", fun l => hasWord "reboot" l),
   ("\\bshutdown\\b", fun l => hasWord "shutdown" l)]

def anyBlockedPattern (l : List Char) : Bool :=
  BLOCKED_PATTERNS.any (fun pr => pr.2 l)

structure CmdVerdict where
  valid : Bool
  cmd : Option String
  args : Option (List String)
  error : Option String
deriving DecidableEq, Repr

/-- First whitespace-delimited token of the trimmed command (`parts[0]`). -/
def firstToken (s : String) : String :=
  String.mk ((splitWs (jsTrim s).data).headD [])

/-- Remaining whitespace-delimited tokens (`parts.slice(1)`). -/
def restTokens (s : String) : List String :=
  ((splitWs (jsTrim s).data).drop 1).map String.mk

def validateCommand (command : String) : CmdVerdict :=
  -- `!command` is truthy-falsy on a string exactly for the empty string
  if command = "" then ⟨false, none, none, some "Command is required and must be a string."⟩
  else
    let trimmed := jsTrim command
    if trimmed.data.length = 0 then ⟨false, none, none, some "Command cannot be empty."⟩
    else if 2000 < trimmed.data.length then
      ⟨false, none, none, some "Command exceeds maximum length (2000 characters)."⟩
    else if anyBlockedPattern trimmed.data then
      ⟨false, none, none,
       some ("Command contains blocked pattern: " ++
         (((BLOCKED_PATTERNS.find? (fun pr => pr.2 trimmed.data)).map Prod.fst).getD ""))⟩
    else
      let parts := splitWs trimmed.data
      let cmd := String.mk (parts.headD [])
      let args := (parts.drop 1).map String.mk
      if ALLOWED_COMMANDS.contains cmd then ⟨true, some cmd, some args, none⟩
      else
        ⟨false, none, none,
         some ("Command '" ++ cmd ++ "' is not allowed. Allowed: " ++
           String.intercalate ", " ALLOWED_COMMANDS)⟩

/-! ## Package-name validation, from `validatePackageName` and
`sanitizePackageList` in `src/lib/security.ts`

The regex `/^(@[a-z0-9-~][a-z0-9-._~]*\/)?[a-z0-9-~][a-z0-9-._~]*(@[\w.^~>=<|-]+)?$/`
is decomposed into the deterministic matcher below: none of the segment
classes contains `/` or `@`, so greedy spans never need backtracking. -/

/-- Character class `[a-z0-9-~]` (the trailing dash and tilde are literals). -/
def isPkgFirst (c : Char) : Bool :=
  ('a' ≤ c && c ≤ 'z') || c.isDigit || c = '-' || c = '~'

/-- Character class `[a-z0-9-._~]`. -/
def isPkgRest (c : Char) : Bool := isPkgFirst c || c = '.' || c = '_'

/-- Character class `[\w.^~>=<|-]`. -/
def isVerChar (c : Char) : Bool :=
  isWordChar c || c = '.' || c = '^' || c = '~' || c = '>' || c = '=' ||
    c = '<' || c = '|' || c = '-'

/-- Consume `[a-z0-9-~][a-z0-9-._~]*` greedily; return the remainder. -/
def matchSeg (l : List Char) : Option (List Char) :=
  match l with
  | c :: t => if isPkgFirst c then some (t.dropWhile isPkgRest) else none
  | [] => none

/-- Match the optional anchored suffix `(@[\w.^~>=<|-]+)?$`. -/
def matchVer (l : List Char) : Bool :=
  match l with
  | [] => true
  | c :: t => if c = '@' then !t.isEmpty && t.all isVerChar else false

/-- Match `[a-z0-9-~][a-z0-9-._~]*(@[\w.^~>=<|-]+)?$`. -/
def matchNameVer (l : List Char) : Bool :=
  match matchSeg l with
  | some r => matchVer r
  | none => false

/-- After the scope segment, the regex demands a literal `/` and then the
name (and optional version) matched to the end. -/
def pkgScopeRest (r : List Char) : Bool :=
  match r with
  | d :: r2 => if d = '/' then matchNameVer r2 else false
  | [] => false

/-- Match the whole anchored package regex. -/
def pkgRegexMatch (l : List Char) : Bool :=
  match l with
  | [] => false
  | c :: t =>
    if c = '@' then
      -- a leading `@` can only be consumed by the scope group
      match matchSeg t with
      | some r => pkgScopeRest r
      | none => false
    else matchNameVer (c :: t)

def validatePackageName (name : String) : Bool :=
  if name = "" then false
  else
    let trimmed := jsTrim name
    if trimmed.data.length = 0 ∨ 214 < trimmed.data.length then false
    else pkgRegexMatch trimmed.data

/-- An element of the untyped input list handed to `sanitizePackageList`:
either a JavaScript string, or any other value carried together with its
`String(...)` rendering. -/
inductive PkgItem where
  | str (s : String)
  | other (stringified : String)
deriving DecidableEq, Repr

structure PkgPartition where
  valid : List String
  invalid : List String
deriving DecidableEq, Repr

/-- The loop body of `sanitizePackageList`, with the `seen` set and both
output accumulators made explicit. -/
def sanitizeLoop : List PkgItem → List String → List String → List String → PkgPartition
  | [], _, vacc, iacc => ⟨vacc, iacc⟩
  | .other r :: rest, seen, vacc, iacc => sanitizeLoop rest seen vacc (iacc ++ [r])
  | .str s :: rest, seen, vacc, iacc =>
    let trimmed := jsTrim s
    if seen.contains trimmed then sanitizeLoop rest seen vacc iacc
    else if validatePackageName trimmed then
      sanitizeLoop rest (seen ++ [trimmed]) (vacc ++ [trimmed]) iacc
    else sanitizeLoop rest (seen ++ [trimmed]) vacc (iacc ++ [trimmed])

/-- `sanitizePackageList`: `none` models a non-array argument. -/
def sanitizePackageList : Option (List PkgItem) → PkgPartition
  | none => ⟨[], []⟩
  | some l => sanitizeLoop l [] [] []

/-! ## Safe error responses, from `safeErrorResponse` in `src/lib/security.ts` -/

/-- A caught JavaScript value: an `Error` instance (which carries a message
and a stack trace), or any other value with its rendering. -/
inductive JsCaught where
  | jsError (message : String) (stack : String)
  | nonError (stringified : String)
deriving DecidableEq, Repr

structure SafeError where
  error : String
  context : String
deriving DecidableEq, Repr

def safeErrorResponse : JsCaught → String → SafeError
  | .jsError m _, ctx => ⟨m, ctx⟩
  | .nonError _, ctx => ⟨"An unexpected error occurred.", ctx⟩

/-! ## Rate limiting, from `checkRateLimit` in `src/lib/security.ts`

The mutable `rateLimitStore` entry for one key is passed in and returned
explicitly; `now` is the value of `Date.now()` during the call. -/

structure RateDecision where
  allowed : Bool
  remaining : Int
  resetMs : Int
deriving DecidableEq, Repr

/-- `entry.timestamps.filter((t) => now - t < windowMs)` -/
def pruneBucket (now windowMs : Int) (l : List Int) : List Int :=
  l.filter (fun t => decide (now - t < windowMs))

def checkRateLimit (bucket : List Int) (maxRequests windowMs now : Int) :
    RateDecision × List Int :=
  let ts := pruneBucket now windowMs bucket
  let remaining : Int := max 0 (maxRequests - ts.length)
  -- `entry.timestamps[0] || now`: an absent head, and also a head equal to 0
  -- (which is falsy in JavaScript), both yield `now`
  let oldestInWindow : Int :=
    match ts.head? with
    | some t => if t = 0 then now else t
    | none => now
  let resetMs := oldestInWindow + windowMs - now
  if maxRequests ≤ (ts.length : Int) then (⟨false, 0, resetMs⟩, ts)
  else (⟨true, remaining - 1, resetMs⟩, ts ++ [now])

/-! ## Sandbox path validation, from `validateSandboxPath` in
`src/lib/security.ts` -/

structure PathVerdict where
  valid : Bool
  normalizedPath : Option String
  error : Option String
deriving DecidableEq, Repr

def hasNullByte (s : String) : Bool := s.data.any (fun c => c.toNat = 0)

/-- The candidate absolute path: the input itself when absolute, otherwise
the input joined to the allowed base. -/
def joinedPath (path allowedBase : String) : String :=
  if strStartsWith path "/" then path else allowedBase ++ "/" ++ path

def validateSandboxPath (path : String) (allowedBase : String) : PathVerdict :=
  -- `!path` is truthy-falsy on a string exactly for the empty string
  if path = "" then ⟨false, none, some "Path is required."⟩
  else if containsSub ("..".data) path.data then
    ⟨false, none, some "Path traversal is not allowed."⟩
  else if hasNullByte path then
    ⟨false, none, some "Null bytes are not allowed in paths."⟩
  else
    let fullPath := joinedPath path allowedBase
    if !(strStartsWith fullPath allowedBase) && !(strStartsWith fullPath "/vercel/sandbox") then
      ⟨false, none, some ("Path must be within " ++ allowedBase ++ " or /vercel/sandbox.")⟩
    else ⟨true, some fullPath, none⟩

/-! ## Helper lemmas -/

lemma str_eq_empty_iff (s : String) : s = "" ↔ s.data = [] :=
  String.ext_iff.trans (by simp)

lemma mem_dropWhile_of_not {p : Char → Bool} :
    ∀ {l : List Char} {c : Char}, c ∈ l → p c = false → c ∈ l.dropWhile p := by
  intro l
  induction l with
  | nil => intro c h _; cases h
  | cons x xs ih =>
    intro c hmem hc
    rw [List.dropWhile_cons]
    by_cases hx : p x
    · rw [if_pos hx]
      rcases List.mem_cons.mp hmem with h | h
      · subst h; rw [hx] at hc; cases hc
      · exact ih h hc
    · rw [if_neg hx]
      exact hmem

lemma mem_jsTrim {s : String} {c : Char} (h : c ∈ s.data) (hc : isJsSpace c = false) :
    c ∈ (jsTrim s).data := by
  show c ∈ jsTrimList s.data
  unfold jsTrimList
  exact List.mem_reverse.mpr
    (mem_dropWhile_of_not (List.mem_reverse.mpr (mem_dropWhile_of_not h hc)) hc)

/-- When `validateCommand` accepts, the trimmed command passed every entry of
the deny-list. -/
lemma validateCommand_valid_no_blocked {s : String}
    (h : (validateCommand s).valid = true) :
    anyBlockedPattern (jsTrim s).data = false := by
  by_cases hb : anyBlockedPattern (jsTrim s).data
  · exfalso
    unfold validateCommand at h
    by_cases h0 : s = "" <;> simp only [h0, if_pos, if_neg, reduceIte] at h
    · cases h
    · by_cases h1 : (jsTrim s).data.length = 0 <;> simp only [h1, reduceIte] at h
      · cases h
      · by_cases h2 : 2000 < (jsTrim s).data.length <;> simp only [h2, reduceIte] at h
        · cases h
        · rw [if_pos hb] at h
          cases h
  · exact Bool.eq_false_iff.mpr hb

/-- C9: safeErrorResponse always returns the given context string; when the
caught value is an `Error` its message is surfaced (the stack never is),
otherwise the fixed generic message is used. -/
theorem safeErrorResponse_shape :
    ∀ (c : JsCaught) (ctx : String),
      (safeErrorResponse c ctx).context = ctx ∧
      (∀ m st, c = JsCaught.jsError m st → safeErrorResponse c ctx = ⟨m, ctx⟩) ∧
      (∀ r, c = JsCaught.nonError r →
        safeErrorResponse c ctx = ⟨"An unexpected error occurred.", ctx⟩) := by
  intro c ctx
  refine ⟨?_, ?_, ?_⟩
  · cases c <;> rfl
  · intro m st h
    subst h
    rfl
  · intro r h
    subst h
    rfl

theorem safeErrorResponse_shape_witness :
    safeErrorResponse (JsCaught.jsError "boom" "secret stack") "ctx" = ⟨"boom", "ctx"⟩ :=
  (safeErrorResponse_shape (JsCaught.jsError "boom" "secret stack") "ctx").2.1
    "boom" "secret stack" rfl

/-- C10: the containment check of validateSandboxPath is a plain string-prefix
test on the uncanonicalized candidate: with base `/home/user/app` the sibling
directory `/home/user/appdata` is accepted as its own normalizedPath even
though it is neither the base nor below it, and every traversal-free path
under `/vercel/sandbox` is accepted whatever base is passed. -/
theorem validateSandboxPath_prefix_escape :
    validateSandboxPath "/home/user/appdata" "/home/user/app" =
      ⟨true, some "/home/user/appdata", none⟩ ∧
    strStartsWith "/home/user/appdata" ("/home/user/app" ++ "/") = false ∧
    "/home/user/appdata" ≠ "/home/user/app" ∧
    (∀ (p base : String), strStartsWith p "/vercel/sandbox" = true →
      containsSub ("..".data) p.data = false → hasNullByte p = false →
      (validateSandboxPath p base).valid = true) := by
  refine ⟨by decide, by decide, by decide, ?_⟩
  intro p base hpre hdots hnull
  have hpne : p ≠ "" := by
    intro h
    subst h
    revert hpre
    decide
  have hslash : strStartsWith p "/" = true := by
    unfold strStartsWith at hpre ⊢
    rw [List.isPrefixOf_iff_prefix] at hpre ⊢
    exact List.IsPrefix.trans ⟨("vercel/sandbox".data), rfl⟩ hpre
  unfold validateSandboxPath joinedPath
  rw [if_neg hpne, hdots, hnull]
  simp only [Bool.false_eq_true, reduceIte, if_pos hslash, hpre, Bool.not_true,
    Bool.and_false, Bool.false_eq_true]

theorem validateSandboxPath_prefix_escape_witness :
    (validateSandboxPath "/vercel/sandbox/x" "/somewhere/else").valid = true :=
  validateSandboxPath_prefix_escape.2.2.2 "/vercel/sandbox/x" "/somewhere/else"
    (by decide) (by decide) (by decide)

/-- C4: once N admitted timestamps sit inside the window, the next call is
rejected with remaining 0 and records nothing; once all of them have aged past
the window, the next call is admitted with remaining N−1. -/
theorem checkRateLimit_boundary :
    ∀ (b : List Int) (N W now now' : Int), 1 ≤ N →
      ((∀ t ∈ b, now - t < W) → (b.length : Int) = N →
        (checkRateLimit b N W now).1.allowed = false ∧
        (checkRateLimit b N W now).1.remaining = 0 ∧
        (checkRateLimit b N W now).2 = b) ∧
      ((∀ t ∈ b, W ≤ now' - t) →
        (checkRateLimit b N W now').1.allowed = true ∧
        (checkRateLimit b N W now').1.remaining = N - 1 ∧
        (checkRateLimit b N W now').2 = [now']) := by
  intro b N W now now' hN
  constructor
  · intro hin hlen
    have hprune : pruneBucket now W b = b := by
      unfold pruneBucket
      exact List.filter_eq_self.mpr (fun a ha => decide_eq_true (hin a ha))
    have hcond : N ≤ ((b.length : Int)) := le_of_eq hlen.symm
    simp only [checkRateLimit, hprune, if_pos hcond]
    simp
  · intro hout
    have hprune : pruneBucket now' W b = [] := by
      unfold pruneBucket
      refine List.filter_eq_nil_iff.mpr (fun a ha => ?_)
      have := hout a ha
      simp only [decide_eq_true_eq]
      omega
    simp only [checkRateLimit, hprune, List.length_nil, Nat.cast_zero]
    rw [if_neg (by omega : ¬ N ≤ (0:Int))]
    refine ⟨rfl, ?_, rfl⟩
    simp only [sub_zero]
    rw [max_eq_right (by omega : (0:Int) ≤ N)]

theorem checkRateLimit_boundary_witness :
    (checkRateLimit [(5:Int), 6, 7] 3 10 8).1.allowed = false ∧
    (checkRateLimit [(5:Int), 6, 7] 3 10 8).1.remaining = 0 ∧
    (checkRateLimit [(5:Int), 6, 7] 3 10 8).2 = [5, 6, 7] ∧
    (checkRateLimit [(5:Int), 6, 7] 3 10 20).1.allowed = true ∧
    (checkRateLimit [(5:Int), 6, 7] 3 10 20).1.remaining = 2 := by
  have h := checkRateLimit_boundary [(5:Int), 6, 7] 3 10 8 20 (by decide)
  have h1 := h.1 (by decide) (by decide)
  have h2 := h.2 (by decide)
  exact ⟨h1.1, h1.2.1, h1.2.2, h2.1, h2.2.1⟩

/-- C5: every call prunes the bucket to the in-window timestamps, reports
resetMs as (oldest survivor, or now) + windowMs − now and remaining as
max(0, limit − survivors) less one on admission, both non-negative, and stores
the pruned bucket plus the new timestamp exactly when admitted.  (Stored
timestamps are positive in every reachable state, since they are values of
`Date.now()`; timestamp 0 would be falsy in `timestamps[0] || now`.) -/
theorem checkRateLimit_outputs :
    ∀ (b : List Int) (N W now : Int), 0 ≤ W → (∀ t ∈ b, 0 < t) →
      (checkRateLimit b N W now).1.resetMs =
        ((pruneBucket now W b).head?.getD now) + W - now ∧
      (checkRateLimit b N W now).1.remaining =
        max 0 (N - ((pruneBucket now W b).length : Int)) -
          (if (checkRateLimit b N W now).1.allowed then 1 else 0) ∧
      0 ≤ (checkRateLimit b N W now).1.remaining ∧
      0 ≤ (checkRateLimit b N W now).1.resetMs ∧
      (checkRateLimit b N W now).2 =
        (if (checkRateLimit b N W now).1.allowed
         then pruneBucket now W b ++ [now] else pruneBucket now W b) := by
  intro b N W now hW hpos
  have hmem : ∀ t ∈ pruneBucket now W b, t ∈ b ∧ now - t < W := by
    intro t ht
    unfold pruneBucket at ht
    rw [List.mem_filter] at ht
    exact ⟨ht.1, of_decide_eq_true ht.2⟩
  cases hts : pruneBucket now W b with
  | nil =>
    simp only [checkRateLimit, hts, List.length_nil, Nat.cast_zero, List.head?_nil,
      Option.getD_none]
    by_cases hc : N ≤ (0:Int)
    · rw [if_pos hc]
      refine ⟨rfl, ?_, le_refl 0, (by omega : (0:Int) ≤ now + W - now), by simp⟩
      show (0:Int) = max 0 (N - 0) - (if (false : Bool) = true then 1 else 0)
      simp only [Bool.false_eq_true, reduceIte, sub_zero]
      rw [max_eq_left hc]
    · rw [if_neg hc]
      refine ⟨rfl, ?_, ?_, (by omega : (0:Int) ≤ now + W - now), by simp⟩
      · show max 0 (N - 0) - 1 = max 0 (N - 0) - (if (true : Bool) = true then 1 else 0)
        simp
      · show (0:Int) ≤ max 0 (N - 0) - 1
        rw [sub_zero, max_eq_right (by omega : (0:Int) ≤ N)]
        omega
  | cons t r =>
    have ht : t ∈ pruneBucket now W b := by
      rw [hts]
      exact List.mem_cons_self t r
    have h0 : 0 < t := hpos t (hmem t ht).1
    have hwin : now - t < W := (hmem t ht).2
    simp only [checkRateLimit, hts, List.head?_cons, Option.getD_some,
      if_neg (by omega : ¬ t = 0)]
    by_cases hc : N ≤ (((t :: r).length : Nat) : Int)
    · rw [if_pos hc]
      refine ⟨rfl, ?_, le_refl 0, (by omega : (0:Int) ≤ t + W - now), by simp⟩
      show (0:Int) = max 0 (N - ((t :: r).length : Int)) - (if (false : Bool) = true then 1 else 0)
      simp only [Bool.false_eq_true, reduceIte, sub_zero]
      rw [max_eq_left (by omega : N - (((t :: r).length : Nat) : Int) ≤ 0)]
    · rw [if_neg hc]
      refine ⟨rfl, ?_, ?_, (by omega : (0:Int) ≤ t + W - now), by simp⟩
      · show max 0 (N - ((t :: r).length : Int)) - 1 =
          max 0 (N - ((t :: r).length : Int)) - (if (true : Bool) = true then 1 else 0)
        simp
      · show (0:Int) ≤ max 0 (N - ((t :: r).length : Int)) - 1
        rw [max_eq_right (by omega : (0:Int) ≤ N - (((t :: r).length : Nat) : Int))]
        omega

theorem checkRateLimit_outputs_witness :
    0 ≤ (checkRateLimit [(3:Int)] 2 10 5).1.remaining ∧
    0 ≤ (checkRateLimit [(3:Int)] 2 10 5).1.resetMs ∧
    (checkRateLimit [(3:Int)] 2 10 5).1.resetMs =
      ((pruneBucket 5 10 [(3:Int)]).head?.getD 5) + 10 - 5 := by
  have h := checkRateLimit_outputs [(3:Int)] 2 10 5 (by decide) (by decide)
  exact ⟨h.2.2.1, h.2.2.2.1, h.1⟩

lemma anyBlockedPattern_eq_false_iff (l : List Char) :
    anyBlockedPattern l = false ↔ ∀ pr ∈ BLOCKED_PATTERNS, pr.2 l = false := by
  unfold anyBlockedPattern
  constructor
  · intro h pr hpr
    refine Bool.eq_false_iff.mpr (fun htrue => ?_)
    have hany : BLOCKED_PATTERNS.any (fun pr => pr.2 l) = true :=
      List.any_eq_true.mpr ⟨pr, hpr, htrue⟩
    rw [hany] at h
    cases h
  · intro h
    refine Bool.eq_false_iff.mpr (fun htrue => ?_)
    obtain ⟨pr, hpr, hone⟩ := List.any_eq_true.mp htrue
    rw [h pr hpr] at hone
    cases hone

/-- When `validateCommand` accepts, every guard on the way to acceptance must
have passed. -/
lemma validateCommand_valid_conditions {s : String}
    (h : (validateCommand s).valid = true) :
    jsTrim s ≠ "" ∧ (jsTrim s).data.length ≤ 2000 ∧
      anyBlockedPattern (jsTrim s).data = false ∧
      ALLOWED_COMMANDS.contains (firstToken s) = true := by
  have hft : String.mk ((splitWs (jsTrim s).data).headD []) = firstToken s := rfl
  by_cases h0 : s = ""
  · subst h0
    exact absurd h (by decide)
  by_cases h1 : (jsTrim s).data.length = 0
  · exfalso
    have he : (validateCommand s).valid = false := by
      simp only [validateCommand]
      rw [if_neg h0, if_pos h1]
    rw [he] at h
    cases h
  by_cases h2 : 2000 < (jsTrim s).data.length
  · exfalso
    have he : (validateCommand s).valid = false := by
      simp only [validateCommand]
      rw [if_neg h0, if_neg h1, if_pos h2]
    rw [he] at h
    cases h
  by_cases h3 : anyBlockedPattern (jsTrim s).data = true
  · exfalso
    have he : (validateCommand s).valid = false := by
      simp only [validateCommand]
      rw [if_neg h0, if_neg h1, if_neg h2, if_pos h3]
    rw [he] at h
    cases h
  by_cases h4 : ALLOWED_COMMANDS.contains (firstToken s) = true
  · refine ⟨?_, by omega, Bool.eq_false_iff.mpr h3, h4⟩
    intro he
    exact h1 (by rw [he]; rfl)
  · exfalso
    have he : (validateCommand s).valid = false := by
      simp only [validateCommand]
      rw [if_neg h0, if_neg h1, if_neg h2, if_neg h3, hft, if_neg h4]
    rw [he] at h
    cases h

/-- When every guard passes, `validateCommand` returns the accepted record. -/
lemma validateCommand_eq_accept {s : String} (h0 : s ≠ "")
    (h1 : ¬ (jsTrim s).data.length = 0) (h2 : ¬ 2000 < (jsTrim s).data.length)
    (h3 : ¬ anyBlockedPattern (jsTrim s).data = true)
    (h4 : ALLOWED_COMMANDS.contains (firstToken s) = true) :
    validateCommand s = ⟨true, some (firstToken s), some (restTokens s), none⟩ := by
  have hft : String.mk ((splitWs (jsTrim s).data).headD []) = firstToken s := rfl
  have hrt : ((splitWs (jsTrim s).data).drop 1).map String.mk = restTokens s := rfl
  simp only [validateCommand]
  rw [if_neg h0, if_neg h1, if_neg h2, if_neg h3, hft, hrt, if_pos h4]

/-- C1: validateCommand accepts exactly the strings whose trimmed form is
non-empty, at most 2000 characters long, free of every deny-list pattern, and
whose first whitespace-delimited token is in the allow-list; on acceptance it
returns that token as `cmd` and the remaining tokens verbatim as `args`, as on
"npm install react". -/
theorem validateCommand_characterization :
    ∀ s : String,
      ((validateCommand s).valid = true ↔
        (jsTrim s ≠ "" ∧ (jsTrim s).data.length ≤ 2000 ∧
         (∀ pr ∈ BLOCKED_PATTERNS, pr.2 (jsTrim s).data = false) ∧
         ALLOWED_COMMANDS.contains (firstToken s) = true)) ∧
      ((validateCommand s).valid = true →
        validateCommand s = ⟨true, some (firstToken s), some (restTokens s), none⟩) ∧
      validateCommand "npm install react" =
        ⟨true, some "npm", some ["install", "react"], none⟩ := by
  intro s
  have haccept : (validateCommand s).valid = true →
      validateCommand s = ⟨true, some (firstToken s), some (restTokens s), none⟩ := by
    intro h
    obtain ⟨a, b, c, d⟩ := validateCommand_valid_conditions h
    have h0 : s ≠ "" := by
      intro he
      subst he
      exact a rfl
    refine validateCommand_eq_accept h0 ?_ (by omega) (by rw [c]; exact Bool.false_ne_true) d
    intro hl
    exact a ((str_eq_empty_iff _).mpr (List.length_eq_zero.mp hl))
  refine ⟨⟨?_, ?_⟩, haccept, by decide⟩
  · intro h
    obtain ⟨a, b, c, d⟩ := validateCommand_valid_conditions h
    exact ⟨a, b, (anyBlockedPattern_eq_false_iff _).mp c, d⟩
  · rintro ⟨a, b, c, d⟩
    have h0 : s ≠ "" := by
      intro he
      subst he
      exact a rfl
    have hc : anyBlockedPattern (jsTrim s).data = false :=
      (anyBlockedPattern_eq_false_iff _).mpr c
    rw [validateCommand_eq_accept h0
      (fun hl => a ((str_eq_empty_iff _).mpr (List.length_eq_zero.mp hl)))
      (by omega) (by rw [hc]; exact Bool.false_ne_true) d]

theorem validateCommand_characterization_witness :
    validateCommand "npm install react" =
      ⟨true, some (firstToken "npm install react"),
       some (restTokens "npm install react"), none⟩ :=
  (validateCommand_characterization "npm install react").2.1 (by decide)

lemma contains_pair_iff (s a b : String) : ([a, b].contains s) = true ↔ s = a ∨ s = b := by
  constructor
  · intro h
    have hm : s ∈ [a, b] := List.elem_iff.mp h
    simpa using hm
  · intro h
    apply List.elem_eq_true_of_mem
    simpa using h

lemma isShellMeta_not_space {c : Char} (h : isShellMeta c = true) :
    isJsSpace c = false := by
  have h' : (((c.toNat = 59 ∨ c.toNat = 38) ∨ c.toNat = 124) ∨ c.toNat = 96) ∨
      c.toNat = 36 := by
    simpa only [isShellMeta, Bool.or_eq_true, decide_eq_true_eq] using h
  unfold isJsSpace jsWhitespaceCodes
  rcases h' with (((h' | h') | h') | h') | h' <;> rw [h'] <;> decide

/-- C2: any string containing a semicolon, vertical bar, ampersand, dollar or
backtick anywhere is rejected by validateCommand, whatever its first token. -/
theorem validateCommand_rejects_shell_metachars :
    ∀ (s : String) (c : Char), c ∈ s.data → isShellMeta c = true →
      (validateCommand s).valid = false := by
  intro s c hmem hmeta
  by_cases h : (validateCommand s).valid = true
  · exfalso
    have hclean := (validateCommand_valid_conditions h).2.2.1
    have hc : c ∈ (jsTrim s).data := mem_jsTrim hmem (isShellMeta_not_space hmeta)
    have hany : (jsTrim s).data.any isShellMeta = true :=
      List.any_eq_true.mpr ⟨c, hc, hmeta⟩
    have hblocked : anyBlockedPattern (jsTrim s).data = true := by
      unfold anyBlockedPattern
      refine List.any_eq_true.mpr ⟨("[;&|`$]", fun l => l.any isShellMeta), ?_, hany⟩
      unfold BLOCKED_PATTERNS
      exact List.mem_cons_self _ _
    rw [hclean] at hblocked
    cases hblocked
  · exact Bool.eq_false_iff.mpr h

theorem validateCommand_rejects_shell_metachars_witness :
    ';' ∈ ("npm install; rm -rf /").data ∧ isShellMeta ';' = true ∧
    (validateCommand "npm install; rm -rf /").valid = false :=
  ⟨by decide, by decide,
   validateCommand_rejects_shell_metachars "npm install; rm -rf /" ';'
     (by decide) (by decide)⟩

/-- C6 as frozen is refuted at the empty string: it contains neither the
traversal token nor a null byte, it does not start with a slash, and its
joined candidate starts with the allowed base — so the claim predicts
acceptance — yet validateSandboxPath rejects it with "Path is required.". -/
theorem validateSandboxPath_claim_cex :
    validateSandboxPath "" "/home/user/app" = ⟨false, none, some "Path is required."⟩ ∧
    containsSub ("..".data) ("" : String).data = false ∧
    hasNullByte "" = false ∧
    strStartsWith "" "/" = false ∧
    strStartsWith (joinedPath "" "/home/user/app") "/home/user/app" = true := by
  decide

/-- C6 amended: traversal tokens and null bytes reject unconditionally, and a
NON-EMPTY input free of both is joined to the base when relative and accepted,
with the candidate as normalizedPath, exactly when the candidate starts with
the allowed base or with "/vercel/sandbox" (the empty string is instead
rejected as required-but-missing). -/
theorem validateSandboxPath_characterization :
    ∀ (p base : String),
      (containsSub ("..".data) p.data = true → (validateSandboxPath p base).valid = false) ∧
      (hasNullByte p = true → (validateSandboxPath p base).valid = false) ∧
      (p ≠ "" → containsSub ("..".data) p.data = false → hasNullByte p = false →
        (((validateSandboxPath p base).valid = true ↔
           (strStartsWith (joinedPath p base) base = true ∨
            strStartsWith (joinedPath p base) "/vercel/sandbox" = true)) ∧
         ((validateSandboxPath p base).valid = true →
           validateSandboxPath p base = ⟨true, some (joinedPath p base), none⟩))) := by
  intro p base
  refine ⟨?_, ?_, ?_⟩
  · intro h
    unfold validateSandboxPath
    by_cases h0 : p = ""
    · rw [if_pos h0]
    · rw [if_neg h0, if_pos h]
  · intro h
    unfold validateSandboxPath
    by_cases h0 : p = ""
    · rw [if_pos h0]
    · rw [if_neg h0]
      by_cases hdot : containsSub ("..".data) p.data = true
      · rw [if_pos hdot]
      · rw [if_neg hdot, if_pos h]
  · intro h0 hdot hnull
    unfold validateSandboxPath
    rw [if_neg h0, if_neg (by rw [hdot]; exact Bool.false_ne_true),
      if_neg (by rw [hnull]; exact Bool.false_ne_true)]
    by_cases hA : strStartsWith (joinedPath p base) base = true
    · rw [if_neg (by simp [hA])]
      exact ⟨by simp [hA], fun _ => rfl⟩
    · by_cases hB : strStartsWith (joinedPath p base) "/vercel/sandbox" = true
      · rw [if_neg (by simp [hB])]
        exact ⟨by simp [hB], fun _ => rfl⟩
      · rw [if_pos (by simp [Bool.eq_false_iff.mpr hA, Bool.eq_false_iff.mpr hB])]
        constructor
        · constructor
          · intro h
            cases h
          · intro h
            rcases h with h | h
            · exact absurd h hA
            · exact absurd h hB
        · intro h
          cases h

theorem validateSandboxPath_characterization_witness :
    (validateSandboxPath "a..b" "/home/user/app").valid = false ∧
    validateSandboxPath "src/App.tsx" "/home/user/app" =
      ⟨true, some "/home/user/app/src/App.tsx", none⟩ := by
  have h := (validateSandboxPath_characterization "src/App.tsx" "/home/user/app").2.2
    (by decide) (by decide) (by decide)
  have hv : (validateSandboxPath "src/App.tsx" "/home/user/app").valid = true :=
    h.1.mpr (Or.inl (by decide))
  refine ⟨(validateSandboxPath_characterization "a..b" "/home/user/app").1 (by decide), ?_⟩
  rw [h.2 hv]
  decide

/-- C3: validateUrl accepts exactly the successfully parsed URLs whose
protocol is http or https and whose lower-cased hostname is neither in the
exact block set nor matched by any private/link-local pattern; on acceptance
it returns the parsed URL, and the ftp / javascript / https examples behave as
claimed. -/
theorem validateUrl_characterization :
    ∀ p : Option JsUrl,
      ((validateUrl p).valid = true ↔
        ∃ u, p = some u ∧ (u.protocol = "http:" ∨ u.protocol = "https:") ∧
          BLOCKED_HOSTNAMES.contains (jsToLower u.hostname) = false ∧
          (∀ pat ∈ BLOCKED_HOSTNAME_PATTERNS, pat (jsToLower u.hostname) = false)) ∧
      ((validateUrl p).valid = true → (validateUrl p).url = p) ∧
      validateUrl (some ⟨"ftp:", "example.com"⟩) =
        ⟨false, none, some "Invalid protocol: ftp:. Only http and https are allowed."⟩ ∧
      validateUrl (some ⟨"javascript:", ""⟩) =
        ⟨false, none, some "Invalid protocol: javascript:. Only http and https are allowed."⟩ ∧
      validateUrl (some ⟨"https:", "example.com"⟩) =
        ⟨true, some ⟨"https:", "example.com"⟩, none⟩ := by
  intro p
  have hmain : (validateUrl p).valid = true ↔
      ∃ u, p = some u ∧ (u.protocol = "http:" ∨ u.protocol = "https:") ∧
        BLOCKED_HOSTNAMES.contains (jsToLower u.hostname) = false ∧
        (∀ pat ∈ BLOCKED_HOSTNAME_PATTERNS, pat (jsToLower u.hostname) = false) := by
    cases p with
    | none => simp [validateUrl]
    | some u =>
      simp only [validateUrl]
      by_cases hp : (["http:", "https:"].contains u.protocol) = true
      · rw [if_neg (show ¬ (!(["http:", "https:"].contains u.protocol)) = true by
            rw [hp]; decide)]
        by_cases hb : BLOCKED_HOSTNAMES.contains (jsToLower u.hostname) = true
        · rw [if_pos hb]
          constructor
          · intro h
            exact absurd h Bool.false_ne_true
          · rintro ⟨v, hv, -, hbn, -⟩
            injection hv with hv
            subst hv
            rw [hb] at hbn
            cases hbn
        · rw [if_neg hb]
          by_cases hpat :
              (BLOCKED_HOSTNAME_PATTERNS.any (fun pat => pat (jsToLower u.hostname))) = true
          · rw [if_pos hpat]
            constructor
            · intro h
              exact absurd h Bool.false_ne_true
            · rintro ⟨v, hv, -, -, hall⟩
              injection hv with hv
              subst hv
              obtain ⟨pat, hmem, hone⟩ := List.any_eq_true.mp hpat
              rw [hall pat hmem] at hone
              cases hone
          · rw [if_neg hpat]
            constructor
            · intro _
              refine ⟨u, rfl, (contains_pair_iff _ _ _).mp hp, Bool.eq_false_iff.mpr hb, ?_⟩
              intro pat hmem
              cases hpv : pat (jsToLower u.hostname) with
              | false => rfl
              | true => exact absurd (List.any_eq_true.mpr ⟨pat, hmem, hpv⟩) hpat
            · intro _
              rfl
      · rw [if_pos (show (!(["http:", "https:"].contains u.protocol)) = true by
            rw [Bool.eq_false_iff.mpr hp]; decide)]
        constructor
        · intro h
          exact absurd h Bool.false_ne_true
        · rintro ⟨v, hv, hproto, -, -⟩
          injection hv with hv
          subst hv
          exact absurd ((contains_pair_iff _ _ _).mpr hproto) hp
  refine ⟨hmain, ?_, by decide, by decide, by decide⟩
  intro h
  rcases hmain.mp h with ⟨u, hu, hproto, hb, hpat⟩
  subst hu
  simp only [validateUrl]
  rw [if_neg (show ¬ (!(["http:", "https:"].contains u.protocol)) = true by
      rw [(contains_pair_iff _ _ _).mpr hproto]; decide),
    if_neg (by rw [hb]; exact Bool.false_ne_true),
    if_neg (by
      have hfalse :
          (BLOCKED_HOSTNAME_PATTERNS.any (fun pat => pat (jsToLower u.hostname))) = false := by
        refine Bool.eq_false_iff.mpr (fun htrue => ?_)
        obtain ⟨pat, hmem, hone⟩ := List.any_eq_true.mp htrue
        rw [hpat pat hmem] at hone
        cases hone
      rw [hfalse]
      exact Bool.false_ne_true)]

theorem validateUrl_characterization_witness :
    (validateUrl (some ⟨"https:", "example.com"⟩)).valid = true ∧
    (validateUrl (some ⟨"https:", "example.com"⟩)).url = some ⟨"https:", "example.com"⟩ :=
  ⟨by decide, (validateUrl_characterization (some ⟨"https:", "example.com"⟩)).2.1 (by decide)⟩

/-! ## C7: deduplication in sanitizePackageList -/

/-- The string pushed into an output bucket for an item: string entries are
pushed in trimmed form, non-string entries as their `String(...)` rendering. -/
def pushedString : PkgItem → String
  | .str s => jsTrim s
  | .other r => r

/-- Whether an item lands in `valid`: a string whose trimmed form is a valid
package name; non-string items never do. -/
def classifyItem : PkgItem → Bool
  | .str s => validatePackageName (jsTrim s)
  | .other _ => false

/-- Follows the claim's words: deduplicate the entries themselves by exact
match, keeping first occurrences. -/
def dedupExact : List PkgItem → List PkgItem → List PkgItem
  | [], _ => []
  | x :: rest, seen =>
    if seen.contains x then dedupExact rest seen
    else x :: dedupExact rest (seen ++ [x])

/-- Follows the claim's words: deduplicate entries by exact string match
before classification, then partition into valid and invalid preserving
first-seen order. -/
def claimedSanitize (l : List PkgItem) : PkgPartition :=
  ⟨((dedupExact l []).filter classifyItem).map pushedString,
   ((dedupExact l []).filter (fun x => !classifyItem x)).map pushedString⟩

/-- C7 as frozen is refuted: "react" and " react" are distinct strings, so
deduplication by exact string match keeps both, but sanitizePackageList
deduplicates by the trimmed form and drops the second. -/
theorem sanitizePackageList_claim_cex :
    (sanitizePackageList (some [PkgItem.str "react", PkgItem.str " react"])).valid =
      ["react"] ∧
    (claimedSanitize [PkgItem.str "react", PkgItem.str " react"]).valid =
      ["react", "react"] ∧
    PkgItem.str "react" ≠ PkgItem.str " react" := by
  decide

/-- Deduplication as the code performs it: string entries are deduplicated by
exact match of their TRIMMED forms; non-string entries are always kept and
never enter the seen set. -/
def dedupTrim : List PkgItem → List String → List PkgItem
  | [], _ => []
  | .str s :: rest, seen =>
    if seen.contains (jsTrim s) then dedupTrim rest seen
    else PkgItem.str s :: dedupTrim rest (seen ++ [jsTrim s])
  | .other r :: rest, seen => PkgItem.other r :: dedupTrim rest seen

/-- The amended two-phase description: trimmed-form deduplication, then the
order-preserving partition by validity. -/
def amendedSanitize : Option (List PkgItem) → PkgPartition
  | none => ⟨[], []⟩
  | some l =>
    ⟨((dedupTrim l []).filter classifyItem).map pushedString,
     ((dedupTrim l []).filter (fun x => !classifyItem x)).map pushedString⟩

lemma sanitizeLoop_eq :
    ∀ (l : List PkgItem) (seen vacc iacc : List String),
      sanitizeLoop l seen vacc iacc =
        ⟨vacc ++ ((dedupTrim l seen).filter classifyItem).map pushedString,
         iacc ++ ((dedupTrim l seen).filter (fun x => !classifyItem x)).map pushedString⟩ := by
  intro l
  induction l with
  | nil =>
    intro seen vacc iacc
    simp [sanitizeLoop, dedupTrim]
  | cons x rest ih =>
    intro seen vacc iacc
    cases x with
    | other r =>
      have hstep : sanitizeLoop (PkgItem.other r :: rest) seen vacc iacc =
          sanitizeLoop rest seen vacc (iacc ++ [r]) := rfl
      have hd : dedupTrim (PkgItem.other r :: rest) seen =
          PkgItem.other r :: dedupTrim rest seen := rfl
      rw [hstep, ih, hd, List.filter_cons, List.filter_cons]
      simp [show classifyItem (PkgItem.other r) = false from rfl,
        show pushedString (PkgItem.other r) = r from rfl, List.append_assoc]
    | str s =>
      by_cases hseen : seen.contains (jsTrim s) = true
      · have hstep : sanitizeLoop (PkgItem.str s :: rest) seen vacc iacc =
            sanitizeLoop rest seen vacc iacc := by
          show (if seen.contains (jsTrim s) = true then sanitizeLoop rest seen vacc iacc
            else if validatePackageName (jsTrim s) = true then
              sanitizeLoop rest (seen ++ [jsTrim s]) (vacc ++ [jsTrim s]) iacc
            else sanitizeLoop rest (seen ++ [jsTrim s]) vacc (iacc ++ [jsTrim s])) = _
          rw [if_pos hseen]
        have hd : dedupTrim (PkgItem.str s :: rest) seen = dedupTrim rest seen := by
          show (if seen.contains (jsTrim s) = true then dedupTrim rest seen
            else PkgItem.str s :: dedupTrim rest (seen ++ [jsTrim s])) = _
          rw [if_pos hseen]
        rw [hstep, ih, hd]
      · by_cases hval : validatePackageName (jsTrim s) = true
        · have hstep : sanitizeLoop (PkgItem.str s :: rest) seen vacc iacc =
              sanitizeLoop rest (seen ++ [jsTrim s]) (vacc ++ [jsTrim s]) iacc := by
            show (if seen.contains (jsTrim s) = true then sanitizeLoop rest seen vacc iacc
              else if validatePackageName (jsTrim s) = true then
                sanitizeLoop rest (seen ++ [jsTrim s]) (vacc ++ [jsTrim s]) iacc
              else sanitizeLoop rest (seen ++ [jsTrim s]) vacc (iacc ++ [jsTrim s])) = _
            rw [if_neg hseen, if_pos hval]
          have hd : dedupTrim (PkgItem.str s :: rest) seen =
              PkgItem.str s :: dedupTrim rest (seen ++ [jsTrim s]) := by
            show (if seen.contains (jsTrim s) = true then dedupTrim rest seen
              else PkgItem.str s :: dedupTrim rest (seen ++ [jsTrim s])) = _
            rw [if_neg hseen]
          rw [hstep, ih, hd, List.filter_cons, List.filter_cons]
          simp [show classifyItem (PkgItem.str s) = validatePackageName (jsTrim s) from rfl,
            show pushedString (PkgItem.str s) = jsTrim s from rfl, hval, List.append_assoc]
        · have hval' : validatePackageName (jsTrim s) = false := Bool.eq_false_iff.mpr hval
          have hstep : sanitizeLoop (PkgItem.str s :: rest) seen vacc iacc =
              sanitizeLoop rest (seen ++ [jsTrim s]) vacc (iacc ++ [jsTrim s]) := by
            show (if seen.contains (jsTrim s) = true then sanitizeLoop rest seen vacc iacc
              else if validatePackageName (jsTrim s) = true then
                sanitizeLoop rest (seen ++ [jsTrim s]) (vacc ++ [jsTrim s]) iacc
              else sanitizeLoop rest (seen ++ [jsTrim s]) vacc (iacc ++ [jsTrim s])) = _
            rw [if_neg hseen, if_neg hval]
          have hd : dedupTrim (PkgItem.str s :: rest) seen =
              PkgItem.str s :: dedupTrim rest (seen ++ [jsTrim s]) := by
            show (if seen.contains (jsTrim s) = true then dedupTrim rest seen
              else PkgItem.str s :: dedupTrim rest (seen ++ [jsTrim s])) = _
            rw [if_neg hseen]
          rw [hstep, ih, hd, List.filter_cons, List.filter_cons]
          simp [show classifyItem (PkgItem.str s) = validatePackageName (jsTrim s) from rfl,
            show pushedString (PkgItem.str s) = jsTrim s from rfl, hval', List.append_assoc]

/-- C7 amended: non-array input degrades to empty/empty; an array is
deduplicated by exact match of the trimmed entries (string entries only —
non-string entries are stringified into invalid and never deduplicated), then
partitioned into valid/invalid preserving first-seen order with string
entries pushed in trimmed form; the ["react","react","lodash",""] example
yields valid = ["react","lodash"]. -/
theorem sanitizePackageList_characterization :
    (∀ x : Option (List PkgItem), sanitizePackageList x = amendedSanitize x) ∧
    sanitizePackageList none = ⟨[], []⟩ ∧
    sanitizePackageList (some [PkgItem.str "react", PkgItem.str "react",
        PkgItem.str "lodash", PkgItem.str ""]) =
      ⟨["react", "lodash"], [""]⟩ := by
  refine ⟨?_, rfl, by decide⟩
  intro x
  cases x with
  | none => rfl
  | some l =>
    show sanitizeLoop l [] [] [] = _
    rw [sanitizeLoop_eq]
    simp [amendedSanitize]

/-! ## C8: the package-name grammar -/

/-- Follows the claim's words: scope and name segments drawn from lower-case
alphanumerics and the characters - . _ ~ (no restriction on the first
character). -/
def claimedSegChar (c : Char) : Bool :=
  ('a' ≤ c && c ≤ 'z') || c.isDigit || c = '-' || c = '.' || c = '_' || c = '~'

/-- Follows the claim's words: the version/range specifier is made only of
digits, dots, and the range operators ^ ~ > = < | . -/
def claimedVerChar (c : Char) : Bool :=
  c.isDigit || c = '.' || c = '^' || c = '~' || c = '>' || c = '=' || c = '<' || c = '|'

def claimedSeg (l : List Char) : Option (List Char) :=
  match l with
  | c :: t => if claimedSegChar c then some (t.dropWhile claimedSegChar) else none
  | [] => none

def claimedVer (l : List Char) : Bool :=
  match l with
  | [] => true
  | c :: t => if c = '@' then !t.isEmpty && t.all claimedVerChar else false

def claimedNameVer (l : List Char) : Bool :=
  match claimedSeg l with
  | some r => claimedVer r
  | none => false

def claimedScopeRest (r : List Char) : Bool :=
  match r with
  | d :: r2 => if d = '/' then claimedNameVer r2 else false
  | [] => false

def claimedMatch (l : List Char) : Bool :=
  match l with
  | [] => false
  | c :: t =>
    if c = '@' then
      match claimedSeg t with
      | some r => claimedScopeRest r
      | none => false
    else claimedNameVer (c :: t)

/-- The acceptance predicate described by the claim. -/
def claimedPackageName (name : String) : Bool :=
  decide (jsTrim name ≠ "") && decide ((jsTrim name).data.length ≤ 214) &&
    claimedMatch (jsTrim name).data

/-- C8 as frozen is refuted in both directions: the code accepts
"react@beta" (its version class also admits letters, underscore and dash)
which the claimed grammar rejects, and the claimed grammar accepts ".foo"
(its segments admit '.' and '_' in first position) which the code rejects. -/
theorem validatePackageName_claim_cex :
    validatePackageName "react@beta" = true ∧ claimedPackageName "react@beta" = false ∧
    validatePackageName ".foo" = false ∧ claimedPackageName ".foo" = true := by
  decide

/-- A scope or name segment of the regex: a character of `[a-z0-9-~]`
followed by characters of `[a-z0-9-._~]`. -/
def SegOk (l : List Char) : Prop :=
  ∃ c t, l = c :: t ∧ isPkgFirst c = true ∧ ∀ x ∈ t, isPkgRest x = true

/-- A version/range specifier body: one or more characters of
`[\w.^~>=<|-]`. -/
def VerOk (l : List Char) : Prop :=
  l ≠ [] ∧ ∀ x ∈ l, isVerChar x = true

/-- A name segment followed by an optional @-version suffix. -/
def NameVerOk (l : List Char) : Prop :=
  ∃ name ver, l = name ++ (match ver with | some v => '@' :: v | none => ([] : List Char)) ∧
    SegOk name ∧ (∀ v : List Char, ver = some v → VerOk v)

/-- The language of the package regex, as an explicit decomposition into an
optional scope segment, a name segment, and an optional version suffix. -/
def PkgGrammar (l : List Char) : Prop :=
  ∃ (scope : Option (List Char)) (name : List Char) (ver : Option (List Char)),
    l = (match scope with
         | some sc => '@' :: (sc ++ ['/'])
         | none => ([] : List Char)) ++ name ++
        (match ver with | some v => '@' :: v | none => ([] : List Char)) ∧
    (∀ sc, scope = some sc → SegOk sc) ∧ SegOk name ∧
    (∀ v : List Char, ver = some v → VerOk v)

lemma mem_takeWhile {p : Char → Bool} :
    ∀ {l : List Char} {x : Char}, x ∈ l.takeWhile p → p x = true := by
  intro l
  induction l with
  | nil => intro x h; cases h
  | cons a t ih =>
    intro x h
    rw [List.takeWhile_cons] at h
    by_cases ha : p a
    · rw [if_pos ha] at h
      rcases List.mem_cons.mp h with h | h
      · subst h
        exact ha
      · exact ih h
    · rw [if_neg ha] at h
      cases h

lemma dropWhile_append_all {p : Char → Bool} :
    ∀ {t r : List Char}, (∀ x ∈ t, p x = true) → (t ++ r).dropWhile p = r.dropWhile p := by
  intro t
  induction t with
  | nil => intro r _; rfl
  | cons a t ih =>
    intro r h
    rw [List.cons_append, List.dropWhile_cons, if_pos (h a (List.mem_cons_self a t))]
    exact ih (fun x hx => h x (List.mem_cons.mpr (Or.inr hx)))

lemma matchSeg_cons (c : Char) (t : List Char) :
    matchSeg (c :: t) =
      if isPkgFirst c = true then some (t.dropWhile isPkgRest) else none := rfl

lemma matchSeg_sound {l r : List Char} (h : matchSeg l = some r) :
    ∃ seg, l = seg ++ r ∧ SegOk seg := by
  cases l with
  | nil => cases h
  | cons c t =>
    rw [matchSeg_cons] at h
    by_cases hc : isPkgFirst c = true
    · rw [if_pos hc] at h
      injection h with h
      refine ⟨c :: t.takeWhile isPkgRest, ?_,
        c, t.takeWhile isPkgRest, rfl, hc, fun x hx => mem_takeWhile hx⟩
      rw [← h, List.cons_append, List.takeWhile_append_dropWhile]
    · rw [if_neg hc] at h
      cases h

lemma matchSeg_complete {seg : List Char} (r : List Char) (h : SegOk seg) :
    matchSeg (seg ++ r) = some (r.dropWhile isPkgRest) := by
  obtain ⟨c, t, rfl, hc, hall⟩ := h
  rw [List.cons_append, matchSeg_cons, if_pos hc, dropWhile_append_all hall]

lemma matchVer_cons (c : Char) (t : List Char) :
    matchVer (c :: t) =
      if c = '@' then !t.isEmpty && t.all isVerChar else false := rfl

lemma matchNameVer_iff (l : List Char) : matchNameVer l = true ↔ NameVerOk l := by
  constructor
  · intro h
    cases hms : matchSeg l with
    | none =>
      exfalso
      have h2 : matchNameVer l = false := by
        show (match matchSeg l with | some r => matchVer r | none => false) = false
        rw [hms]
      rw [h2] at h
      cases h
    | some r =>
      have h2 : matchVer r = true := by
        have h3 : matchNameVer l =
            (match matchSeg l with | some r => matchVer r | none => false) := rfl
        rw [h3, hms] at h
        exact h
      obtain ⟨seg, rfl, hseg⟩ := matchSeg_sound hms
      cases r with
      | nil =>
        exact ⟨seg, none, rfl, hseg, fun v hv => by cases hv⟩
      | cons d t2 =>
        rw [matchVer_cons] at h2
        by_cases hd : d = '@'
        · subst hd
          rw [if_pos rfl, Bool.and_eq_true] at h2
          refine ⟨seg, some t2, rfl, hseg, ?_⟩
          intro v hv
          injection hv with hv
          subst hv
          constructor
          · intro he
            subst he
            exact absurd h2.1 (by decide)
          · exact fun x hx => List.all_eq_true.mp h2.2 x hx
        · rw [if_neg hd] at h2
          cases h2
  · rintro ⟨name, ver, rfl, hname, hver⟩
    have h3 : ∀ l2 : List Char, matchNameVer l2 =
        (match matchSeg l2 with | some r => matchVer r | none => false) := fun _ => rfl
    cases ver with
    | none =>
      rw [h3, matchSeg_complete _ hname]
      rfl
    | some v =>
      rw [h3, matchSeg_complete _ hname, List.dropWhile_cons,
        if_neg (by decide : ¬ isPkgRest '@' = true)]
      show matchVer ('@' :: v) = true
      rw [matchVer_cons, if_pos rfl]
      obtain ⟨hne, hall⟩ := hver v rfl
      cases v with
      | nil => exact absurd rfl hne
      | cons a t2 =>
        rw [Bool.and_eq_true]
        exact ⟨by rw [List.isEmpty_cons]; rfl, List.all_eq_true.mpr hall⟩

lemma pkgScopeRest_cons (d : Char) (r : List Char) :
    pkgScopeRest (d :: r) = if d = '/' then matchNameVer r else false := rfl

lemma pkgRegexMatch_at (t : List Char) :
    pkgRegexMatch ('@' :: t) =
      (match matchSeg t with | some r => pkgScopeRest r | none => false) := rfl

lemma pkgRegexMatch_iff (l : List Char) : pkgRegexMatch l = true ↔ PkgGrammar l := by
  cases l with
  | nil =>
    constructor
    · intro h
      cases h
    · rintro ⟨scope, name, ver, heq, -, hname, -⟩
      obtain ⟨c, t, rfl, -, -⟩ := hname
      exfalso
      cases scope with
      | none => cases ver with
                | none => simp at heq
                | some v => simp at heq
      | some sc => cases ver with
                   | none => simp at heq
                   | some v => simp at heq
  | cons c t =>
    by_cases hc : c = '@'
    · subst hc
      rw [pkgRegexMatch_at]
      constructor
      · intro h
        cases hms : matchSeg t with
        | none =>
          rw [hms] at h
          cases h
        | some r' =>
          rw [hms] at h
          have h2 : pkgScopeRest r' = true := h
          cases r' with
          | nil => exact absurd h2 (by decide)
          | cons d r =>
            rw [pkgScopeRest_cons] at h2
            by_cases hd : d = '/'
            · subst hd
              rw [if_pos rfl] at h2
              obtain ⟨sc, ht, hsc⟩ := matchSeg_sound hms
              obtain ⟨name, ver, hr, hname, hver⟩ := (matchNameVer_iff r).mp h2
              refine ⟨some sc, name, ver, ?_, ?_, hname, hver⟩
              · rw [ht, hr]
                cases ver with
                | none => simp
                | some v => simp
              · intro sc2 hsc2
                injection hsc2 with hsc2
                subst hsc2
                exact hsc
            · rw [if_neg hd] at h2
              cases h2
      · rintro ⟨scope, name, ver, heq, hscope, hname, hver⟩
        cases scope with
        | none =>
          exfalso
          obtain ⟨c2, t2, rfl, hfirst, -⟩ := hname
          cases ver with
          | none =>
            rw [List.nil_append, List.append_nil] at heq
            injection heq with h1 h2
            rw [← h1] at hfirst
            exact absurd hfirst (by decide)
          | some v =>
            rw [List.nil_append, List.cons_append] at heq
            injection heq with h1 h2
            rw [← h1] at hfirst
            exact absurd hfirst (by decide)
        | some sc =>
          cases ver with
          | none =>
            have heq' : '@' :: t = '@' :: (sc ++ '/' :: name) := by
              rw [heq]
              simp
            injection heq' with h1 h2
            subst h2
            rw [matchSeg_complete ('/' :: name) (hscope sc rfl),
              List.dropWhile_cons, if_neg (by decide : ¬ isPkgRest '/' = true)]
            show pkgScopeRest ('/' :: name) = true
            rw [pkgScopeRest_cons, if_pos rfl]
            exact (matchNameVer_iff _).mpr ⟨name, none, by simp, hname, hver⟩
          | some v =>
            have heq' : '@' :: t = '@' :: (sc ++ '/' :: (name ++ '@' :: v)) := by
              rw [heq]
              simp
            injection heq' with h1 h2
            subst h2
            rw [matchSeg_complete ('/' :: (name ++ '@' :: v)) (hscope sc rfl),
              List.dropWhile_cons, if_neg (by decide : ¬ isPkgRest '/' = true)]
            show pkgScopeRest ('/' :: (name ++ '@' :: v)) = true
            rw [pkgScopeRest_cons, if_pos rfl]
            exact (matchNameVer_iff _).mpr ⟨name, some v, rfl, hname, hver⟩
    · have hred : pkgRegexMatch (c :: t) = matchNameVer (c :: t) := by
        show (if c = '@' then
          (match matchSeg t with | some r => pkgScopeRest r | none => false)
          else matchNameVer (c :: t)) = _
        rw [if_neg hc]
      rw [hred]
      constructor
      · intro h
        obtain ⟨name, ver, heq, hname, hver⟩ := (matchNameVer_iff _).mp h
        refine ⟨none, name, ver, ?_, fun sc hsc => Option.noConfusion hsc, hname, hver⟩
        rw [List.nil_append]
        exact heq
      · rintro ⟨scope, name, ver, heq, hscope, hname, hver⟩
        cases scope with
        | none =>
          rw [List.nil_append] at heq
          exact (matchNameVer_iff _).mpr ⟨name, ver, heq, hname, hver⟩
        | some sc =>
          exfalso
          rw [List.cons_append, List.append_assoc] at heq
          injection heq with h1 h2
          exact hc h1

/-- C8 amended: validatePackageName accepts exactly the strings whose trimmed
form is non-empty, at most 214 characters, and decomposes as an optional
scope '@scope/' and a name, where each segment STARTS with a character from
lower-case alphanumerics, '-', '~' and continues with characters that may
additionally be '.' or '_', followed by an optional version/range specifier
after '@' of one or more characters drawn from letters (either case), digits,
underscore, dot, dash, and the range operators ^ ~ > = < | . -/
theorem validatePackageName_characterization :
    (∀ name : String,
      validatePackageName name = true ↔
        (jsTrim name ≠ "" ∧ (jsTrim name).data.length ≤ 214 ∧
         PkgGrammar (jsTrim name).data)) ∧
    validatePackageName "react" = true ∧
    validatePackageName "@types/react" = true ∧
    validatePackageName "react@^18.0.0" = true ∧
    validatePackageName "" = false ∧
    validatePackageName "UPPERCASE" = false ∧
    validatePackageName "../../../etc/passwd" = false := by
  refine ⟨?_, by decide, by decide, by decide, by decide, by decide, by decide⟩
  intro name
  unfold validatePackageName
  by_cases h0 : name = ""
  · subst h0
    rw [if_pos rfl]
    simp [show jsTrim "" = "" from rfl]
  · rw [if_neg h0]
    by_cases h1 : (jsTrim name).data.length = 0 ∨ 214 < (jsTrim name).data.length
    · rw [if_pos h1]
      constructor
      · intro h
        cases h
      · rintro ⟨hne, hlen, -⟩
        exfalso
        rcases h1 with h1 | h1
        · exact hne ((str_eq_empty_iff _).mpr (List.length_eq_zero.mp h1))
        · omega
    · rw [if_neg h1]
      push_neg at h1
      rw [pkgRegexMatch_iff]
      constructor
      · intro hg
        refine ⟨?_, by omega, hg⟩
        intro he
        rw [str_eq_empty_iff] at he
        exact h1.1 (by rw [he]; rfl)
      · rintro ⟨-, -, hg⟩
        exact hg

end OpenLovable
